import Mathlib

/-!
# ruleOfFive.cpp : ownership transfer of `myClass`

A shallow embedding of `src/ruleOfFive.cpp`.  The program manipulates

* a heap of `int` cells obtained with `new int` and given back with `delete`;
* objects of class `myClass`, each holding one raw pointer `myPtr`.

Object identity matters (`this != &other`), so objects live in a store indexed by
an object id, and every member function is a function on an explicit `State`.
Console narration (`std::cout << ...`) is not part of the state; the only output
that is modelled is what `describeSelf` reports (pointer and pointee).

Heap addresses are allocation identities: `new int` hands out `State.next` and
never reuses an address, so "the cell `p`" and "the allocation `p`" coincide.
Memory is assumed available: `new int` always succeeds.

Dereferencing a null or dangling pointer, reading an indeterminate value,
deleting a pointer that is not live and using an object after its lifetime are
undefined behaviour in C++; the embedding makes each of them an explicit
`Outcome.undefined`, distinct from an error reported to the caller.
-/

namespace RuleOfFive

/-! ## Semantic domains -/

/-- An `int*`: `none` is the null pointer, `some p` points at heap address `p`. -/
abbrev Ptr := Option Nat

/-- The null pointer constant. -/
def nullptr : Ptr := none

/-- Content of an allocated `int` cell.  `new int` leaves the value indeterminate. -/
inductive Cell where
  | indeterminate
  | val (v : Int)
  deriving DecidableEq, Repr

/-- Heap events, recorded in program order. -/
inductive Event where
  | alloc (p : Nat)
  | store (p : Nat) (v : Int)
  | free (p : Nat)
  deriving DecidableEq, Repr

/-- Error kinds an operation could report to its caller (in C++, an exception
reaching the caller).  The names are the two error kinds of the specification;
the source has no `throw` and no check, so none of its operations produces one. -/
inductive Reported where
  | AllocationFailure
  | EmptyCellAccess
  deriving DecidableEq, Repr

/-- Undefined behaviour of the C++ abstract machine that the program can run into. -/
inductive UB where
  | nullDeref
  | danglingDeref
  | indeterminateRead
  | invalidDelete
  | deadObject
  deriving DecidableEq, Repr

/-- Result of running a piece of the program. -/
inductive Outcome (α : Type) where
  | ok (a : α)
  | raised (e : Reported)
  | undefined (u : UB)
  deriving DecidableEq, Repr

/-- Sequencing of outcomes. -/
def Outcome.bind {α β : Type} (m : Outcome α) (f : α → Outcome β) : Outcome β :=
  match m with
  | Outcome.ok a => f a
  | Outcome.raised e => Outcome.raised e
  | Outcome.undefined u => Outcome.undefined u

/-- The data member of `class myClass` (line 248): `int * myPtr;`. -/
structure myClass where
  myPtr : Ptr
  deriving DecidableEq, Repr

/-- Point update of a map indexed by naturals. -/
def upd {α : Type} (f : Nat → α) (k : Nat) (v : α) : Nat → α :=
  fun i => if i = k then v else f i

/-- Program state: the heap (`cells`, `next`), the live objects (`objs`,
`nextObj`) and the heap events so far. -/
structure State where
  cells : Nat → Option Cell
  next : Nat
  objs : Nat → Option myClass
  nextObj : Nat
  trace : List Event

/-- The state before anything has been allocated or constructed. -/
def State.init : State :=
  { cells := fun _ => none, next := 0, objs := fun _ => none, nextObj := 0, trace := [] }

/-- Addresses allocated in a trace, in order. -/
def allocAddrs : List Event → List Nat
  | [] => []
  | Event.alloc p :: t => p :: allocAddrs t
  | Event.store _ _ :: t => allocAddrs t
  | Event.free _ :: t => allocAddrs t

/-- Addresses released in a trace, in order. -/
def freeAddrs : List Event → List Nat
  | [] => []
  | Event.alloc _ :: t => freeAddrs t
  | Event.store _ _ :: t => freeAddrs t
  | Event.free p :: t => p :: freeAddrs t

/-! ## Heap primitives -/

/-- The expression `new int`: a fresh cell with indeterminate content. -/
def newInt (s : State) : Nat × State :=
  (s.next,
   { s with cells := upd s.cells s.next (some Cell.indeterminate),
            next := s.next + 1,
            trace := s.trace ++ [Event.alloc s.next] })

/-- The statement `*p = v;`. -/
def storeAt (s : State) (p : Ptr) (v : Int) : Outcome State :=
  match p with
  | none => Outcome.undefined UB.nullDeref
  | some a =>
    match s.cells a with
    | none => Outcome.undefined UB.danglingDeref
    | some _ =>
      Outcome.ok { s with cells := upd s.cells a (some (Cell.val v)),
                          trace := s.trace ++ [Event.store a v] }

/-- The rvalue `*p`. -/
def load (s : State) (p : Ptr) : Outcome Int :=
  match p with
  | none => Outcome.undefined UB.nullDeref
  | some a =>
    match s.cells a with
    | none => Outcome.undefined UB.danglingDeref
    | some Cell.indeterminate => Outcome.undefined UB.indeterminateRead
    | some (Cell.val v) => Outcome.ok v

/-- The statement `delete p;`.  Deleting the null pointer does nothing. -/
def deleteInt (s : State) (p : Ptr) : Outcome State :=
  match p with
  | none => Outcome.ok s
  | some a =>
    match s.cells a with
    | none => Outcome.undefined UB.invalidDelete
    | some _ =>
      Outcome.ok { s with cells := upd s.cells a none,
                          trace := s.trace ++ [Event.free a] }

/-- Access to a live object through a reference or `this`. -/
def getObj (s : State) (o : Nat) : Outcome myClass :=
  match s.objs o with
  | none => Outcome.undefined UB.deadObject
  | some c => Outcome.ok c

/-- Assignment to the member `myPtr` of object `o`. -/
def setPtr (s : State) (o : Nat) (p : Ptr) : State :=
  { s with objs := upd s.objs o (some { myPtr := p }) }

/-- Storage for a new object whose `myPtr` is initialised to `p`. -/
def newObj (s : State) (p : Ptr) : Nat × State :=
  (s.nextObj,
   { s with objs := upd s.objs s.nextObj (some { myPtr := p }),
            nextObj := s.nextObj + 1 })

/-! ## `class myClass` (lines 245-305) -/

/-- Value constructor `myClass(int x = 0)` (lines 250-255):
`myPtr = new int; *myPtr = x;`.  Returns the id of the new object. -/
def myClass.construct (s : State) (x : Int) : Outcome (Nat × State) :=
  let (p, s1) := newInt s
  let (this, s2) := newObj s1 (some p)
  (storeAt s2 (some p) x).bind fun s3 => Outcome.ok (this, s3)

/-- Destructor `~myClass()` (lines 257-262): `delete myPtr; myPtr = nullptr;`,
after which the lifetime of the object ends. -/
def myClass.destroy (s : State) (this : Nat) : Outcome State :=
  (getObj s this).bind fun c =>
  (deleteInt s c.myPtr).bind fun s1 =>
  let s2 := setPtr s1 this nullptr
  Outcome.ok { s2 with objs := upd s2.objs this none }

/-- Copy constructor `myClass(const myClass& other)` (lines 264-269):
`myPtr = new int; *myPtr = *other.myPtr;`. -/
def myClass.copy (s : State) (other : Nat) : Outcome (Nat × State) :=
  (getObj s other).bind fun c =>
  let (p, s1) := newInt s
  let (this, s2) := newObj s1 (some p)
  (load s2 c.myPtr).bind fun v =>
  (storeAt s2 (some p) v).bind fun s3 => Outcome.ok (this, s3)

/-- Copy assignment `operator=(const myClass& other)` (lines 271-278):
`if (this != &other) { *myPtr = *other.myPtr; }`.  The source has no `return`
statement; the reference it would return is not modelled. -/
def myClass.copyAssign (s : State) (this other : Nat) : Outcome State :=
  (getObj s this).bind fun c =>
  (getObj s other).bind fun d =>
  if this ≠ other then
    (load s d.myPtr).bind fun v => storeAt s c.myPtr v
  else Outcome.ok s

/-- Move constructor `myClass(myClass&& other)` (lines 280-285):
`myPtr = other.myPtr; other.myPtr = nullptr;`. -/
def myClass.moveConstruct (s : State) (other : Nat) : Outcome (Nat × State) :=
  (getObj s other).bind fun c =>
  let (this, s1) := newObj s c.myPtr
  Outcome.ok (this, setPtr s1 other nullptr)

/-- Move assignment `operator=(myClass&& other)` (lines 287-299):
`if (&other == this) return *this; delete myPtr; myPtr = other.myPtr;
other.myPtr = nullptr;`. -/
def myClass.moveAssign (s : State) (this other : Nat) : Outcome State :=
  (getObj s this).bind fun c =>
  (getObj s other).bind fun d =>
  if other = this then Outcome.ok s
  else
    (deleteInt s c.myPtr).bind fun s1 =>
    let s2 := setPtr s1 this d.myPtr
    Outcome.ok (setPtr s2 other nullptr)

/-- The member `describeSelf()` (lines 301-304): prints `myPtr` and `*myPtr`.
The result is the pair that is printed. -/
def myClass.describeSelf (s : State) (this : Nat) : Outcome (Ptr × Int) :=
  (getObj s this).bind fun c =>
  (load s c.myPtr).bind fun v => Outcome.ok (c.myPtr, v)

/-- A client write through the public member, `*(y.myPtr) = w;`
(the statement of lines 39, 78, 96 and 162 of the demonstrations). -/
def writeThrough (s : State) (o : Nat) (w : Int) : Outcome State :=
  (getObj s o).bind fun c => storeAt s c.myPtr w

/-- A client read through the public member, `*(x.myPtr)`. -/
def valueOf (s : State) (o : Nat) : Outcome Int :=
  (getObj s o).bind fun c => load s c.myPtr

/-- The handle an object holds, `x.myPtr`. -/
def handleOf (s : State) (o : Nat) : Outcome Ptr :=
  (getObj s o).bind fun c => Outcome.ok c.myPtr

/-- The factory `createObj(int x)` (lines 308-312):
`myClass someObject = myClass(x); return someObject;`.  The returned object is
move-constructed from the local, and the local is then destroyed. -/
def createObj (s : State) (x : Int) : Outcome (Nat × State) :=
  (myClass.construct s x).bind fun (someObject, s1) =>
  (myClass.moveConstruct s1 someObject).bind fun (ret, s2) =>
  (myClass.destroy s2 someObject).bind fun s3 => Outcome.ok (ret, s3)


/-- The demonstration `showImprovementWithRuleOfFive()` (lines 314-324), heap
effects only: `myClass x; x = createObj(42); myClass y(createObj(30));`.  The
temporary of the second statement dies at the end of that statement; `y` is the
object `createObj(30)` returns; `y` and `x` die at the end of the scope. -/
def showImprovementWithRuleOfFive (s : State) : Outcome State :=
  (myClass.construct s 0).bind fun (x, s1) =>
  (createObj s1 42).bind fun (tmp, s2) =>
  (myClass.moveAssign s2 x tmp).bind fun s3 =>
  (myClass.destroy s3 tmp).bind fun s4 =>
  (createObj s4 30).bind fun (y, s5) =>
  (myClass.destroy s5 y).bind fun s6 =>
  myClass.destroy s6 x

/-! ## `class myClassWithCopyConstructorAndCopyAssignment` (lines 105-145)

This earlier class has the same single data member (there called `myIntPtr`);
its objects are kept in the same store. -/

/-- Copy assignment of the earlier class (lines 121-140):
`if (this != &A) { int * newIntPtr = new int; *newIntPtr = *(A.myIntPtr);
delete myIntPtr; myIntPtr = newIntPtr; } return *this;`. -/
def myClassWithCopyConstructorAndCopyAssignment.copyAssign
    (s : State) (this A : Nat) : Outcome State :=
  (getObj s this).bind fun c =>
  (getObj s A).bind fun d =>
  if this ≠ A then
    let (newIntPtr, s1) := newInt s
    (load s1 d.myPtr).bind fun v =>
    (storeAt s1 (some newIntPtr) v).bind fun s2 =>
    (deleteInt s2 c.myPtr).bind fun s3 =>
    Outcome.ok (setPtr s3 this (some newIntPtr))
  else Outcome.ok s

/-! ## Sequences of creations followed by destructions -/

/-- The three ways the program brings a `myClass` object into existence. -/
inductive Create where
  | construct (v : Int)
  | copy (src : Nat)
  | moveConstruct (src : Nat)
  deriving DecidableEq, Repr

/-- Run one creation. -/
def create (s : State) : Create → Outcome (Nat × State)
  | Create.construct v => myClass.construct s v
  | Create.copy src => myClass.copy s src
  | Create.moveConstruct src => myClass.moveConstruct s src

/-- Run a list of creations, left to right. -/
def createAll (s : State) : List Create → Outcome State
  | [] => Outcome.ok s
  | op :: ops => (create s op).bind fun r => createAll r.2 ops

/-- Run the destructor on each listed object, left to right. -/
def destroyAll (s : State) : List Nat → Outcome State
  | [] => Outcome.ok s
  | o :: os => (myClass.destroy s o).bind fun s1 => destroyAll s1 os

/-! ## The ownership invariant -/

/-- What holds of every state the operations of `myClass` reach from
`State.init`: live cells and live objects are below the allocation counters, a
non-null `myPtr` points at a live initialised cell that no other live object
points at, every live cell has an owner, and the trace accounts for every
allocation and release. -/
structure Inv (s : State) : Prop where
  cells_lt : ∀ p, s.cells p ≠ none → p < s.next
  objs_lt : ∀ o, s.objs o ≠ none → o < s.nextObj
  owned : ∀ o p, s.objs o = some { myPtr := some p } → ∃ v, s.cells p = some (Cell.val v)
  unique : ∀ o1 o2 p, s.objs o1 = some { myPtr := some p } →
    s.objs o2 = some { myPtr := some p } → o1 = o2
  no_leak : ∀ p, s.cells p ≠ none → ∃ o, s.objs o = some { myPtr := some p }
  allocs : ∀ p, (allocAddrs s.trace).count p = if p < s.next then 1 else 0
  frees : ∀ p, (freeAddrs s.trace).count p = if p < s.next ∧ s.cells p = none then 1 else 0

/-! ## Concrete states used as instances -/

/-- State after `myClass a(1); myClass b(2);` from the initial state:
object `0` owns cell `0` holding `1`, object `1` owns cell `1` holding `2`. -/
def twoObjects : State :=
  { cells := upd (upd (upd (upd (fun _ => none) 0 (some Cell.indeterminate)) 0
      (some (Cell.val 1))) 1 (some Cell.indeterminate)) 1 (some (Cell.val 2)),
    next := 2,
    objs := upd (upd (fun _ => none) 0 (some { myPtr := some 0 })) 1
      (some { myPtr := some 1 }),
    nextObj := 2,
    trace := [Event.alloc 0, Event.store 0 1, Event.alloc 1, Event.store 1 2] }

/-- State after `myClass a(42); myClass b(std::move(a));` from the initial
state: object `0` is empty, object `1` owns cell `0` holding `42`. -/
def afterMove : State :=
  { cells := upd (upd (fun _ => none) 0 (some Cell.indeterminate)) 0 (some (Cell.val 42)),
    next := 1,
    objs := upd (upd (upd (fun _ => none) 0 (some { myPtr := some 0 })) 1
      (some { myPtr := some 0 })) 0 (some { myPtr := nullptr }),
    nextObj := 2,
    trace := [Event.alloc 0, Event.store 0 42] }

/-- The program `myClass a(42); myClass b(std::move(a)); a.describeSelf();`. -/
def describeAfterMove : Outcome (Ptr × Int) :=
  (myClass.construct State.init 42).bind fun r =>
  (myClass.moveConstruct r.2 r.1).bind fun q =>
  myClass.describeSelf q.2 r.1

/-- A creation sequence using each of the three kinds:
`myClass a(42); myClass b(a); myClass c(std::move(a)); myClass d(7);`. -/
def demoCreations : List Create :=
  [Create.construct 42, Create.copy 0, Create.moveConstruct 0, Create.construct 7]

/-- The state `demoCreations` reaches from the initial state. -/
def demoCreated : State :=
  match createAll State.init demoCreations with
  | Outcome.ok s => s
  | _ => State.init

/-- An order in which to destroy the four objects of `demoCreations`. -/
def demoOrder : List Nat := [2, 0, 3, 1]

/-! ## Basic lemmas -/

@[simp] theorem Outcome.bind_ok {α β : Type} (a : α) (f : α → Outcome β) :
    (Outcome.ok a).bind f = f a := rfl

@[simp] theorem Outcome.bind_raised {α β : Type} (e : Reported) (f : α → Outcome β) :
    (Outcome.raised e : Outcome α).bind f = Outcome.raised e := rfl

@[simp] theorem Outcome.bind_undefined {α β : Type} (u : UB) (f : α → Outcome β) :
    (Outcome.undefined u : Outcome α).bind f = Outcome.undefined u := rfl

@[simp] theorem upd_same {α : Type} (f : Nat → α) (k : Nat) (v : α) : upd f k v k = v := by
  simp [upd]

@[simp] theorem upd_ne {α : Type} (f : Nat → α) (k i : Nat) (v : α) (h : i ≠ k) :
    upd f k v i = f i := by
  simp [upd, h]

theorem allocAddrs_append (l1 l2 : List Event) :
    allocAddrs (l1 ++ l2) = allocAddrs l1 ++ allocAddrs l2 := by
  induction l1 with
  | nil => rfl
  | cons e t ih => cases e <;> simp [allocAddrs, ih]

theorem freeAddrs_append (l1 l2 : List Event) :
    freeAddrs (l1 ++ l2) = freeAddrs l1 ++ freeAddrs l2 := by
  induction l1 with
  | nil => rfl
  | cons e t ih => cases e <;> simp [freeAddrs, ih]

theorem construct_eq (s : State) (x : Int) :
    myClass.construct s x = Outcome.ok (s.nextObj,
      { cells := upd (upd s.cells s.next (some Cell.indeterminate)) s.next (some (Cell.val x)),
        next := s.next + 1,
        objs := upd s.objs s.nextObj (some { myPtr := some s.next }),
        nextObj := s.nextObj + 1,
        trace := s.trace ++ [Event.alloc s.next] ++ [Event.store s.next x] }) := by
  simp [myClass.construct, newInt, newObj, storeAt]

theorem moveConstruct_eq (s : State) (other : Nat) (c : myClass)
    (h : s.objs other = some c) :
    myClass.moveConstruct s other = Outcome.ok (s.nextObj,
      { cells := s.cells, next := s.next,
        objs := upd (upd s.objs s.nextObj (some { myPtr := c.myPtr })) other
          (some { myPtr := nullptr }),
        nextObj := s.nextObj + 1, trace := s.trace }) := by
  simp [myClass.moveConstruct, getObj, h, newObj, setPtr]

theorem copy_eq (s : State) (other p : Nat) (v : Int)
    (h : s.objs other = some { myPtr := some p }) (hv : s.cells p = some (Cell.val v))
    (hp : p ≠ s.next) :
    myClass.copy s other = Outcome.ok (s.nextObj,
      { cells := upd (upd s.cells s.next (some Cell.indeterminate)) s.next (some (Cell.val v)),
        next := s.next + 1,
        objs := upd s.objs s.nextObj (some { myPtr := some s.next }),
        nextObj := s.nextObj + 1,
        trace := s.trace ++ [Event.alloc s.next] ++ [Event.store s.next v] }) := by
  simp [myClass.copy, getObj, h, newInt, newObj, load, storeAt, hp, hv]

theorem handleOf_eq (s : State) (o : Nat) (c : myClass) (h : s.objs o = some c) :
    handleOf s o = Outcome.ok c.myPtr := by
  simp [handleOf, getObj, h]

theorem valueOf_eq (s : State) (o p : Nat) (v : Int)
    (h : s.objs o = some { myPtr := some p }) (hv : s.cells p = some (Cell.val v)) :
    valueOf s o = Outcome.ok v := by
  simp [valueOf, getObj, h, load, hv]

theorem writeThrough_eq (s : State) (o p : Nat) (c : Cell) (w : Int)
    (h : s.objs o = some { myPtr := some p }) (hc : s.cells p = some c) :
    writeThrough s o w = Outcome.ok
      { s with cells := upd s.cells p (some (Cell.val w)),
               trace := s.trace ++ [Event.store p w] } := by
  simp [writeThrough, getObj, h, storeAt, hc]

theorem twoObjects_reached :
    (myClass.construct State.init 1).bind (fun r => myClass.construct r.2 2)
      = Outcome.ok (1, twoObjects) := rfl

theorem afterMove_reached :
    (myClass.construct State.init 42).bind (fun r => myClass.moveConstruct r.2 r.1)
      = Outcome.ok (1, afterMove) := rfl

/-! ## The invariant is established and preserved -/

theorem Inv_init : Inv State.init := by
  refine ⟨?_, ?_, ?_, ?_, ?_, ?_, ?_⟩ <;> simp [State.init, allocAddrs, freeAddrs]

theorem Inv.fresh_cell {s : State} (h : Inv s) : s.cells s.next = none := by
  by_contra hc
  exact absurd (h.cells_lt _ hc) (lt_irrefl _)

theorem Inv.fresh_obj {s : State} (h : Inv s) : s.objs s.nextObj = none := by
  by_contra hc
  exact absurd (h.objs_lt _ hc) (lt_irrefl _)

theorem Inv.owned_lt {s : State} (h : Inv s) {o p : Nat}
    (ho : s.objs o = some { myPtr := some p }) : p < s.next := by
  obtain ⟨v, hv⟩ := h.owned o p ho
  exact h.cells_lt p (by simp [hv])

/-- Allocating a cell, giving it to a new object and initialising it keeps the
invariant.  This is the state both constructors that allocate end in. -/
theorem Inv_alloc (s : State) (v : Int) (h : Inv s) :
    Inv { cells := upd (upd s.cells s.next (some Cell.indeterminate)) s.next (some (Cell.val v)),
          next := s.next + 1,
          objs := upd s.objs s.nextObj (some { myPtr := some s.next }),
          nextObj := s.nextObj + 1,
          trace := s.trace ++ [Event.alloc s.next] ++ [Event.store s.next v] } := by
  refine ⟨?_, ?_, ?_, ?_, ?_, ?_, ?_⟩
  · intro p hp
    by_cases hpn : p = s.next
    · simp [hpn]
    · simp only [ne_eq, hpn, not_false_eq_true, upd_ne] at hp
      have := h.cells_lt p hp
      simp only
      omega
  · intro o ho
    by_cases hon : o = s.nextObj
    · simp [hon]
    · simp only [ne_eq, hon, not_false_eq_true, upd_ne] at ho
      have := h.objs_lt o ho
      simp only
      omega
  · intro o p ho
    by_cases hon : o = s.nextObj
    · subst hon
      simp only [upd_same, Option.some.injEq, myClass.mk.injEq] at ho
      subst ho
      exact ⟨v, by simp⟩
    · simp only [ne_eq, hon, not_false_eq_true, upd_ne] at ho
      obtain ⟨u, hu⟩ := h.owned o p ho
      have hlt := h.owned_lt ho
      have hpn : p ≠ s.next := by omega
      exact ⟨u, by simp [hpn, hu]⟩
  · intro o1 o2 p h1 h2
    by_cases e1 : o1 = s.nextObj <;> by_cases e2 : o2 = s.nextObj
    · rw [e1, e2]
    · subst e1
      simp only [upd_same, Option.some.injEq, myClass.mk.injEq] at h1
      simp only [ne_eq, e2, not_false_eq_true, upd_ne] at h2
      have := h.owned_lt h2
      omega
    · subst e2
      simp only [upd_same, Option.some.injEq, myClass.mk.injEq] at h2
      simp only [ne_eq, e1, not_false_eq_true, upd_ne] at h1
      have := h.owned_lt h1
      omega
    · simp only [ne_eq, e1, e2, not_false_eq_true, upd_ne] at h1 h2
      exact h.unique o1 o2 p h1 h2
  · intro p hp
    by_cases hpn : p = s.next
    · exact ⟨s.nextObj, by simp [hpn]⟩
    · simp only [ne_eq, hpn, not_false_eq_true, upd_ne] at hp
      obtain ⟨o, ho⟩ := h.no_leak p hp
      have hlt := h.objs_lt o (by simp [ho])
      have hon : o ≠ s.nextObj := by omega
      exact ⟨o, by simp [hon, ho]⟩
  · intro p
    have := h.allocs p
    simp only [allocAddrs_append, allocAddrs, List.append_nil, List.count_append, this]
    by_cases hpn : p = s.next
    · simp [hpn]
    · have hpn2 : s.next ≠ p := fun e => hpn e.symm
      simp only [List.count_cons, List.count_nil, beq_iff_eq, hpn2, if_false]
      by_cases hlt : p < s.next
      · have : p < s.next + 1 := by omega
        simp [hlt, this]
      · have : ¬ p < s.next + 1 := by omega
        simp [hlt, this]
  · intro p
    have := h.frees p
    simp only [freeAddrs_append, freeAddrs, List.append_nil, this]
    by_cases hpn : p = s.next
    · simp [hpn]
    · have e : (p < s.next + 1) = (p < s.next) := by
        apply propext
        constructor <;> intro <;> omega
      simp only [ne_eq, hpn, not_false_eq_true, upd_ne, e]

theorem upd_upd_same {α : Type} (f : Nat → α) (k : Nat) (x y : α) :
    upd (upd f k x) k y = upd f k y := by
  funext i
  by_cases h : i = k <;> simp [h]

theorem upd_upd_none {α : Type} (f : Nat → Option α) (k i : Nat) (x : Option α) :
    upd (upd f k x) k none i = if i = k then none else f i := by
  by_cases h : i = k <;> simp [h]

/-- The state the move constructor ends in keeps the invariant. -/
theorem Inv_moveConstruct (s : State) (other : Nat) (c : myClass) (h : Inv s)
    (ho : s.objs other = some c) :
    Inv { cells := s.cells, next := s.next,
          objs := upd (upd s.objs s.nextObj (some { myPtr := c.myPtr })) other
            (some { myPtr := nullptr }),
          nextObj := s.nextObj + 1, trace := s.trace } := by
  have hlt : other < s.nextObj := h.objs_lt other (by simp [ho])
  have hon : other ≠ s.nextObj := by omega
  have key : ∀ o p, upd (upd s.objs s.nextObj (some { myPtr := c.myPtr })) other
      (some { myPtr := nullptr }) o = some { myPtr := some p } →
      (o = s.nextObj ∧ s.objs other = some { myPtr := some p }) ∨
      (o ≠ s.nextObj ∧ o ≠ other ∧ s.objs o = some { myPtr := some p }) := by
    intro o p hop
    by_cases e1 : o = other
    · subst e1
      simp [nullptr] at hop
    · simp only [ne_eq, e1, not_false_eq_true, upd_ne] at hop
      by_cases e2 : o = s.nextObj
      · subst e2
        simp only [upd_same, Option.some.injEq, myClass.mk.injEq] at hop
        left
        refine ⟨rfl, ?_⟩
        rw [ho, ← hop]
      · simp only [ne_eq, e2, not_false_eq_true, upd_ne] at hop
        exact Or.inr ⟨e2, e1, hop⟩
  refine ⟨h.cells_lt, ?_, ?_, ?_, ?_, h.allocs, h.frees⟩
  · intro o hne
    simp only
    by_cases e1 : o = other
    · omega
    · by_cases e2 : o = s.nextObj
      · omega
      · simp only [ne_eq, e1, e2, not_false_eq_true, upd_ne] at hne
        have := h.objs_lt o hne
        omega
  · intro o p hop
    rcases key o p hop with ⟨_, h1⟩ | ⟨_, _, h1⟩
    · exact h.owned _ _ h1
    · exact h.owned _ _ h1
  · intro o1 o2 p h1 h2
    rcases key o1 p h1 with ⟨e1, k1⟩ | ⟨n1, m1, k1⟩ <;>
      rcases key o2 p h2 with ⟨e2, k2⟩ | ⟨n2, m2, k2⟩
    · rw [e1, e2]
    · exact absurd (h.unique _ _ _ k2 k1) m2
    · exact absurd (h.unique _ _ _ k1 k2) m1
    · exact h.unique _ _ _ k1 k2
  · intro p hp
    obtain ⟨o, hop⟩ := h.no_leak p hp
    by_cases e1 : o = other
    · subst e1
      refine ⟨s.nextObj, ?_⟩
      simp only
      rw [upd_ne _ _ _ _ (Ne.symm hon), upd_same]
      rw [ho] at hop
      simp only [Option.some.injEq] at hop
      rw [hop]
    · have := h.objs_lt o (by simp [hop])
      have e2 : o ≠ s.nextObj := by omega
      exact ⟨o, by simp [e1, e2, hop]⟩

/-- The state the destructor ends in keeps the invariant, empty instance. -/
theorem Inv_destroy_empty (s : State) (o : Nat) (h : Inv s)
    (hno : ∀ p, s.objs o ≠ some { myPtr := some p }) :
    Inv { s with objs := upd (upd s.objs o (some { myPtr := nullptr })) o none } := by
  have key : ∀ o1 p, upd (upd s.objs o (some { myPtr := nullptr })) o none o1
      = some { myPtr := some p } → o1 ≠ o ∧ s.objs o1 = some { myPtr := some p } := by
    intro o1 p h1
    rw [upd_upd_none] at h1
    by_cases e : o1 = o
    · simp [e] at h1
    · simp only [e, if_false] at h1
      exact ⟨e, h1⟩
  refine ⟨h.cells_lt, ?_, ?_, ?_, ?_, h.allocs, h.frees⟩
  · intro o1 hne
    simp only at hne ⊢
    rw [upd_upd_none] at hne
    by_cases e : o1 = o
    · simp [e] at hne
    · simp only [e, if_false] at hne
      exact h.objs_lt o1 hne
  · intro o1 p h1
    exact h.owned _ _ (key o1 p h1).2
  · intro o1 o2 p h1 h2
    exact h.unique _ _ _ (key o1 p h1).2 (key o2 p h2).2
  · intro p hp
    obtain ⟨o1, h1⟩ := h.no_leak p hp
    have e : o1 ≠ o := fun e => hno p (e ▸ h1)
    refine ⟨o1, ?_⟩
    simp only
    rw [upd_upd_none]
    simp [e, h1]

/-- The state the destructor ends in keeps the invariant, owning instance. -/
theorem Inv_destroy_owner (s : State) (o p : Nat) (h : Inv s)
    (ho : s.objs o = some { myPtr := some p }) :
    Inv { cells := upd s.cells p none, next := s.next,
          objs := upd (upd s.objs o (some { myPtr := nullptr })) o none,
          nextObj := s.nextObj, trace := s.trace ++ [Event.free p] } := by
  have key : ∀ o1 q, upd (upd s.objs o (some { myPtr := nullptr })) o none o1
      = some { myPtr := some q } → o1 ≠ o ∧ q ≠ p ∧ s.objs o1 = some { myPtr := some q } := by
    intro o1 q h1
    rw [upd_upd_none] at h1
    by_cases e : o1 = o
    · simp [e] at h1
    · simp only [e, if_false] at h1
      refine ⟨e, ?_, h1⟩
      intro eq
      subst eq
      exact e (h.unique _ _ _ h1 ho)
  have hlive : ∀ q, upd s.cells p none q ≠ none → q ≠ p ∧ s.cells q ≠ none := by
    intro q hq
    by_cases e : q = p
    · simp [e] at hq
    · simp only [ne_eq, e, not_false_eq_true, upd_ne] at hq
      exact ⟨e, hq⟩
  obtain ⟨v, hv⟩ := h.owned o p ho
  have hplt : p < s.next := h.owned_lt ho
  refine ⟨?_, ?_, ?_, ?_, ?_, ?_, ?_⟩
  · intro q hq
    exact h.cells_lt q (hlive q hq).2
  · intro o1 hne
    simp only at hne ⊢
    rw [upd_upd_none] at hne
    by_cases e : o1 = o
    · simp [e] at hne
    · simp only [e, if_false] at hne
      exact h.objs_lt o1 hne
  · intro o1 q h1
    obtain ⟨_, hqp, h2⟩ := key o1 q h1
    obtain ⟨u, hu⟩ := h.owned _ _ h2
    exact ⟨u, by simp [hqp, hu]⟩
  · intro o1 o2 q h1 h2
    exact h.unique _ _ _ (key o1 q h1).2.2 (key o2 q h2).2.2
  · intro q hq
    obtain ⟨hqp, hq2⟩ := hlive q hq
    obtain ⟨o1, h1⟩ := h.no_leak q hq2
    have e : o1 ≠ o := by
      intro e
      subst e
      rw [ho] at h1
      simp only [Option.some.injEq, myClass.mk.injEq] at h1
      exact hqp h1.symm
    refine ⟨o1, ?_⟩
    simp only
    rw [upd_upd_none]
    simp [e, h1]
  · intro q
    have := h.allocs q
    simpa [allocAddrs_append, allocAddrs] using this
  · intro q
    have := h.frees q
    simp only [freeAddrs_append, freeAddrs, List.count_append, this]
    by_cases e : q = p
    · subst e
      simp [hv, hplt]
    · have e2 : p ≠ q := fun x => e x.symm
      simp [e, e2]


/-- Every creation that succeeds keeps the invariant, uses the next object id
and ends no lifetime. -/
theorem Inv_create (s s1 : State) (op : Create) (o : Nat) (h : Inv s)
    (hc : create s op = Outcome.ok (o, s1)) :
    Inv s1 ∧ o = s.nextObj ∧ s1.nextObj = s.nextObj + 1 ∧ s1.objs o ≠ none ∧
      ∀ i, s.objs i ≠ none → s1.objs i ≠ none := by
  cases op with
  | construct v =>
    simp only [create, construct_eq, Outcome.ok.injEq, Prod.mk.injEq] at hc
    obtain ⟨rfl, rfl⟩ := hc
    refine ⟨Inv_alloc s v h, rfl, rfl, by simp, ?_⟩
    intro i hi
    have := h.objs_lt i hi
    have e : i ≠ s.nextObj := by omega
    simpa [e] using hi
  | copy src =>
    simp only [create] at hc
    cases hsrc : s.objs src with
    | none => simp [myClass.copy, getObj, hsrc] at hc
    | some c =>
      obtain ⟨ptr⟩ := c
      cases ptr with
      | none => simp [myClass.copy, getObj, hsrc, newInt, newObj, load] at hc
      | some p =>
        obtain ⟨v, hv⟩ := h.owned src p hsrc
        have hlt := h.owned_lt hsrc
        have hp : p ≠ s.next := by omega
        rw [copy_eq s src p v hsrc hv hp] at hc
        simp only [Outcome.ok.injEq, Prod.mk.injEq] at hc
        obtain ⟨rfl, rfl⟩ := hc
        refine ⟨Inv_alloc s v h, rfl, rfl, by simp, ?_⟩
        intro i hi
        have := h.objs_lt i hi
        have e : i ≠ s.nextObj := by omega
        simpa [e] using hi
  | moveConstruct src =>
    simp only [create] at hc
    cases hsrc : s.objs src with
    | none => simp [myClass.moveConstruct, getObj, hsrc] at hc
    | some c =>
      rw [moveConstruct_eq s src c hsrc] at hc
      simp only [Outcome.ok.injEq, Prod.mk.injEq] at hc
      obtain ⟨rfl, rfl⟩ := hc
      have hlt := h.objs_lt src (by simp [hsrc])
      have hne : s.nextObj ≠ src := by omega
      refine ⟨Inv_moveConstruct s src c h hsrc, rfl, rfl, by simp [hne], ?_⟩
      intro i hi
      by_cases e1 : i = src
      · simp [e1]
      · have := h.objs_lt i hi
        have e2 : i ≠ s.nextObj := by omega
        simpa [e1, e2] using hi

/-- After a successful run of creations the invariant holds, every object id
below the counter is live, and the counter has advanced by the number of
creations. -/
theorem Inv_createAll (ops : List Create) :
    ∀ s s1 : State, Inv s → (∀ o, o < s.nextObj → s.objs o ≠ none) →
      createAll s ops = Outcome.ok s1 →
      Inv s1 ∧ (∀ o, o < s1.nextObj → s1.objs o ≠ none) ∧
        s1.nextObj = s.nextObj + ops.length := by
  induction ops with
  | nil =>
    intro s s1 h hl hc
    simp only [createAll, Outcome.ok.injEq] at hc
    subst hc
    exact ⟨h, hl, rfl⟩
  | cons op ops ih =>
    intro s s1 h hl hc
    simp only [createAll] at hc
    cases hop : create s op with
    | raised e => simp [hop] at hc
    | undefined u => simp [hop] at hc
    | ok r =>
      obtain ⟨o, s2⟩ := r
      rw [hop] at hc
      simp only [Outcome.bind_ok] at hc
      obtain ⟨h2, ho, hn, hlive, hkeep⟩ := Inv_create s s2 op o h hop
      have hl2 : ∀ i, i < s2.nextObj → s2.objs i ≠ none := by
        intro i hi
        by_cases e : i = o
        · rw [e]
          exact hlive
        · exact hkeep i (hl i (by omega))
      obtain ⟨h3, hl3, hn3⟩ := ih s2 s1 h2 hl2 hc
      refine ⟨h3, hl3, ?_⟩
      rw [hn3, hn, List.length_cons]
      omega

/-- The destructor succeeds on every live object of a state satisfying the
invariant, keeps the invariant, ends that object and touches no other. -/
theorem Inv_destroy (s : State) (o : Nat) (h : Inv s) (ho : s.objs o ≠ none) :
    ∃ s1, myClass.destroy s o = Outcome.ok s1 ∧ Inv s1 ∧ s1.objs o = none ∧
      ∀ i, i ≠ o → s1.objs i = s.objs i := by
  cases hobj : s.objs o with
  | none => exact absurd hobj ho
  | some c =>
    obtain ⟨ptr⟩ := c
    cases ptr with
    | none =>
      refine ⟨{ s with objs := upd (upd s.objs o (some { myPtr := nullptr })) o none },
        ?_, Inv_destroy_empty s o h ?_, ?_, ?_⟩
      · simp [myClass.destroy, getObj, hobj, deleteInt, setPtr]
      · intro p
        simp [hobj]
      · simp
      · intro i hi
        simp [hi]
    | some p =>
      obtain ⟨v, hv⟩ := h.owned o p hobj
      refine ⟨{ cells := upd s.cells p none, next := s.next,
                objs := upd (upd s.objs o (some { myPtr := nullptr })) o none,
                nextObj := s.nextObj, trace := s.trace ++ [Event.free p] },
        ?_, Inv_destroy_owner s o p h hobj, ?_, ?_⟩
      · simp [myClass.destroy, getObj, hobj, deleteInt, hv, setPtr]
      · simp
      · intro i hi
        simp [hi]

/-- Destroying a duplicate-free list of live objects succeeds, keeps the
invariant, ends exactly the listed objects. -/
theorem Inv_destroyAll (ds : List Nat) :
    ∀ s : State, Inv s → ds.Nodup → (∀ o, o ∈ ds → s.objs o ≠ none) →
      ∃ s1, destroyAll s ds = Outcome.ok s1 ∧ Inv s1 ∧
        (∀ o, o ∈ ds → s1.objs o = none) ∧ (∀ o, o ∉ ds → s1.objs o = s.objs o) := by
  induction ds with
  | nil =>
    intro s h _ _
    exact ⟨s, rfl, h, by simp, by simp⟩
  | cons d ds ih =>
    intro s h hnd hl
    obtain ⟨hd, hnd2⟩ := List.nodup_cons.mp hnd
    obtain ⟨s1, e1, h1, hgone, hsame⟩ := Inv_destroy s d h (hl d (by simp))
    have hl1 : ∀ o, o ∈ ds → s1.objs o ≠ none := by
      intro o ho
      have hod : o ≠ d := fun e => hd (e ▸ ho)
      rw [hsame o hod]
      exact hl o (by simp [ho])
    obtain ⟨s2, e2, h2, hgone2, hsame2⟩ := ih s1 h1 hnd2 hl1
    refine ⟨s2, by simp [destroyAll, e1, e2], h2, ?_, ?_⟩
    · intro o ho
      rcases List.mem_cons.mp ho with e | ho2
      · by_cases hm : o ∈ ds
        · exact hgone2 o hm
        · rw [hsame2 o hm, e]
          exact hgone
      · exact hgone2 o ho2
    · intro o ho
      have hod : o ≠ d := fun e => ho (by simp [e])
      have hm : o ∉ ds := fun hm => ho (by simp [hm])
      rw [hsame2 o hm, hsame o hod]

/-- In a state satisfying the invariant with no live object left, no cell is
live, and the released addresses are the allocated addresses, each once. -/
theorem Inv_accounting (s : State) (h : Inv s) (hdead : ∀ o, s.objs o = none) :
    (∀ p, s.cells p = none) ∧ (allocAddrs s.trace).Nodup ∧ (freeAddrs s.trace).Nodup ∧
      (freeAddrs s.trace).Perm (allocAddrs s.trace) := by
  have hcells : ∀ p, s.cells p = none := by
    intro p
    by_contra hp
    obtain ⟨o, ho⟩ := h.no_leak p hp
    rw [hdead o] at ho
    exact absurd ho (by simp)
  have hcount : ∀ p, (freeAddrs s.trace).count p = (allocAddrs s.trace).count p := by
    intro p
    rw [h.frees p, h.allocs p]
    simp [hcells p]
  refine ⟨hcells, ?_, ?_, ?_⟩
  · rw [List.nodup_iff_count_le_one]
    intro p
    rw [h.allocs p]
    split <;> omega
  · rw [List.nodup_iff_count_le_one]
    intro p
    rw [hcount p, h.allocs p]
    split <;> omega
  · rw [List.perm_iff_count]
    exact hcount

/-- A store into a live cell keeps the invariant. -/
theorem Inv_store (s : State) (p : Nat) (c : Cell) (v : Int) (h : Inv s)
    (hc : s.cells p = some c) :
    Inv { s with cells := upd s.cells p (some (Cell.val v)),
                 trace := s.trace ++ [Event.store p v] } := by
  have hlive : ∀ q, upd s.cells p (some (Cell.val v)) q ≠ none → s.cells q ≠ none := by
    intro q hq
    by_cases e : q = p
    · simp [e, hc]
    · simpa [e] using hq
  refine ⟨fun q hq => h.cells_lt q (hlive q hq), h.objs_lt, ?_, h.unique, ?_, ?_, ?_⟩
  · intro o q ho
    by_cases e : q = p
    · exact ⟨v, by simp [e]⟩
    · obtain ⟨u, hu⟩ := h.owned o q ho
      exact ⟨u, by simp [e, hu]⟩
  · intro q hq
    exact h.no_leak q (hlive q hq)
  · intro q
    have := h.allocs q
    simpa [allocAddrs_append, allocAddrs] using this
  · intro q
    have := h.frees q
    simp only [freeAddrs_append, freeAddrs, List.append_nil, this]
    by_cases e : q = p
    · simp [e, hc]
    · simp [e]

/-- Copy assignment of `myClass` keeps the invariant whenever it completes. -/
theorem Inv_copyAssign (s s1 : State) (this other : Nat) (h : Inv s)
    (hc : myClass.copyAssign s this other = Outcome.ok s1) : Inv s1 := by
  unfold myClass.copyAssign getObj at hc
  cases h1 : s.objs this with
  | none => simp [h1] at hc
  | some c =>
    cases h2 : s.objs other with
    | none => simp [h1, h2] at hc
    | some d =>
      simp only [h1, h2, Outcome.bind_ok] at hc
      by_cases e : this = other
      · simp only [e, ne_eq, not_true_eq_false, if_false, Outcome.ok.injEq] at hc
        exact hc ▸ h
      · simp only [ne_eq, e, not_false_eq_true, if_true] at hc
        cases hl : load s d.myPtr with
        | raised x => simp [hl] at hc
        | undefined u => simp [hl] at hc
        | ok v =>
          simp only [hl, Outcome.bind_ok] at hc
          obtain ⟨ptr⟩ := c
          cases ptr with
          | none => simp [storeAt] at hc
          | some p =>
            cases hp : s.cells p with
            | none => simp [storeAt, hp] at hc
            | some c0 =>
              simp only [storeAt, hp, Outcome.ok.injEq] at hc
              exact hc ▸ Inv_store s p c0 v h hp

/-- A client write through `myPtr` keeps the invariant whenever it completes. -/
theorem Inv_writeThrough (s s1 : State) (o : Nat) (w : Int) (h : Inv s)
    (hc : writeThrough s o w = Outcome.ok s1) : Inv s1 := by
  unfold writeThrough getObj at hc
  cases h1 : s.objs o with
  | none => simp [h1] at hc
  | some c =>
    simp only [h1, Outcome.bind_ok] at hc
    obtain ⟨ptr⟩ := c
    cases ptr with
    | none => simp [storeAt] at hc
    | some p =>
      cases hp : s.cells p with
      | none => simp [storeAt, hp] at hc
      | some c0 =>
        simp only [storeAt, hp, Outcome.ok.injEq] at hc
        exact hc ▸ Inv_store s p c0 w h hp

/-- Releasing the cell an object owns and nulling its pointer keeps the
invariant. -/
theorem Inv_release (s : State) (o p : Nat) (h : Inv s)
    (ho : s.objs o = some { myPtr := some p }) :
    Inv { s with cells := upd s.cells p none,
                 objs := upd s.objs o (some { myPtr := nullptr }),
                 trace := s.trace ++ [Event.free p] } := by
  have key : ∀ o1 q, upd s.objs o (some { myPtr := nullptr }) o1
      = some { myPtr := some q } → o1 ≠ o ∧ q ≠ p ∧ s.objs o1 = some { myPtr := some q } := by
    intro o1 q h1
    by_cases e : o1 = o
    · simp [e, nullptr] at h1
    · simp only [ne_eq, e, not_false_eq_true, upd_ne] at h1
      refine ⟨e, ?_, h1⟩
      intro eq
      subst eq
      exact e (h.unique _ _ _ h1 ho)
  have hlive : ∀ q, upd s.cells p none q ≠ none → q ≠ p ∧ s.cells q ≠ none := by
    intro q hq
    by_cases e : q = p
    · simp [e] at hq
    · simp only [ne_eq, e, not_false_eq_true, upd_ne] at hq
      exact ⟨e, hq⟩
  obtain ⟨v, hv⟩ := h.owned o p ho
  have hplt : p < s.next := h.owned_lt ho
  refine ⟨?_, ?_, ?_, ?_, ?_, ?_, ?_⟩
  · intro q hq
    exact h.cells_lt q (hlive q hq).2
  · intro o1 hne
    by_cases e : o1 = o
    · rw [e]
      exact h.objs_lt o (by simp [ho])
    · simp only [ne_eq, e, not_false_eq_true, upd_ne] at hne
      exact h.objs_lt o1 hne
  · intro o1 q h1
    obtain ⟨_, hqp, h2⟩ := key o1 q h1
    obtain ⟨u, hu⟩ := h.owned _ _ h2
    exact ⟨u, by simp [hqp, hu]⟩
  · intro o1 o2 q h1 h2
    exact h.unique _ _ _ (key o1 q h1).2.2 (key o2 q h2).2.2
  · intro q hq
    obtain ⟨hqp, hq2⟩ := hlive q hq
    obtain ⟨o1, h1⟩ := h.no_leak q hq2
    have e : o1 ≠ o := by
      intro e
      subst e
      rw [ho] at h1
      simp only [Option.some.injEq, myClass.mk.injEq] at h1
      exact hqp h1.symm
    exact ⟨o1, by simp [e, h1]⟩
  · intro q
    have := h.allocs q
    simpa [allocAddrs_append, allocAddrs] using this
  · intro q
    have := h.frees q
    simp only [freeAddrs_append, freeAddrs, List.count_append, this]
    by_cases e : q = p
    · subst e
      simp [hv, hplt]
    · have e2 : p ≠ q := fun x => e x.symm
      simp [e, e2]

/-- Handing the pointer of `source` to an empty `self` and nulling `source`
keeps the invariant. -/
theorem Inv_transfer (s : State) (self source : Nat) (d : myClass) (h : Inv s)
    (hne : self ≠ source) (hself : s.objs self = some { myPtr := nullptr })
    (hsrc : s.objs source = some d) :
    Inv { cells := s.cells, next := s.next,
          objs := upd (upd s.objs self (some { myPtr := d.myPtr })) source
            (some { myPtr := nullptr }),
          nextObj := s.nextObj, trace := s.trace } := by
  have key : ∀ o p, upd (upd s.objs self (some { myPtr := d.myPtr })) source
      (some { myPtr := nullptr }) o = some { myPtr := some p } →
      (o = self ∧ s.objs source = some { myPtr := some p }) ∨
      (o ≠ self ∧ o ≠ source ∧ s.objs o = some { myPtr := some p }) := by
    intro o p hop
    by_cases e1 : o = source
    · subst e1
      simp [nullptr] at hop
    · simp only [ne_eq, e1, not_false_eq_true, upd_ne] at hop
      by_cases e2 : o = self
      · subst e2
        simp only [upd_same, Option.some.injEq, myClass.mk.injEq] at hop
        left
        refine ⟨rfl, ?_⟩
        rw [hsrc, ← hop]
      · simp only [ne_eq, e2, not_false_eq_true, upd_ne] at hop
        exact Or.inr ⟨e2, e1, hop⟩
  refine ⟨h.cells_lt, ?_, ?_, ?_, ?_, h.allocs, h.frees⟩
  · intro o hne1
    by_cases e1 : o = source
    · rw [e1]
      exact h.objs_lt source (by simp [hsrc])
    · by_cases e2 : o = self
      · rw [e2]
        exact h.objs_lt self (by simp [hself])
      · simp only [ne_eq, e1, e2, not_false_eq_true, upd_ne] at hne1
        exact h.objs_lt o hne1
  · intro o p hop
    rcases key o p hop with ⟨_, h1⟩ | ⟨_, _, h1⟩
    · exact h.owned _ _ h1
    · exact h.owned _ _ h1
  · intro o1 o2 p h1 h2
    rcases key o1 p h1 with ⟨e1, k1⟩ | ⟨n1, m1, k1⟩ <;>
      rcases key o2 p h2 with ⟨e2, k2⟩ | ⟨n2, m2, k2⟩
    · rw [e1, e2]
    · exact absurd (h.unique _ _ _ k2 k1) m2
    · exact absurd (h.unique _ _ _ k1 k2) m1
    · exact h.unique _ _ _ k1 k2
  · intro p hp
    obtain ⟨o, hop⟩ := h.no_leak p hp
    by_cases e1 : o = source
    · subst e1
      refine ⟨self, ?_⟩
      simp only
      rw [upd_ne _ _ _ _ hne, upd_same]
      rw [hsrc] at hop
      simp only [Option.some.injEq] at hop
      rw [hop]
    · have e2 : o ≠ self := by
        intro e
        subst e
        rw [hself] at hop
        simp [nullptr] at hop
      exact ⟨o, by simp [e1, e2, hop]⟩

/-- Move assignment of `myClass` keeps the invariant whenever it completes. -/
theorem Inv_moveAssign (s s1 : State) (this other : Nat) (h : Inv s)
    (hc : myClass.moveAssign s this other = Outcome.ok s1) : Inv s1 := by
  unfold myClass.moveAssign getObj at hc
  cases h1 : s.objs this with
  | none => simp [h1] at hc
  | some c =>
    cases h2 : s.objs other with
    | none => simp [h1, h2] at hc
    | some d =>
      simp only [h1, h2, Outcome.bind_ok] at hc
      by_cases e : other = this
      · simp only [e, if_true, Outcome.ok.injEq] at hc
        exact hc ▸ h
      · have e2 : this ≠ other := fun x => e x.symm
        simp only [e, if_false] at hc
        obtain ⟨ptr⟩ := c
        cases ptr with
        | none =>
          simp only [deleteInt, Outcome.bind_ok, Outcome.ok.injEq] at hc
          subst hc
          exact Inv_transfer s this other d h e2 h1 h2
        | some p =>
          obtain ⟨v, hv⟩ := h.owned this p h1
          simp only [deleteInt, hv, Outcome.bind_ok, Outcome.ok.injEq] at hc
          subst hc
          have hr := Inv_release s this p h h1
          have ht := Inv_transfer _ this other d hr e2 (by simp) (by simp [e, h2])
          simpa [setPtr, upd_upd_same] using ht

/-- In a state satisfying the invariant a creation succeeds as soon as its
source is a live object, and for a copy a non-empty one. -/
theorem create_succeeds (s : State) (op : Create) (h : Inv s)
    (hop : match op with
      | Create.construct _ => True
      | Create.copy src => ∃ p, s.objs src = some { myPtr := some p }
      | Create.moveConstruct src => s.objs src ≠ none) :
    ∃ r, create s op = Outcome.ok r := by
  cases op with
  | construct v => exact ⟨_, construct_eq s v⟩
  | copy src =>
    obtain ⟨p, hp⟩ := hop
    obtain ⟨v, hv⟩ := h.owned src p hp
    have hlt := h.owned_lt hp
    exact ⟨_, copy_eq s src p v hp hv (by omega)⟩
  | moveConstruct src =>
    simp only at hop
    cases hsrc : s.objs src with
    | none => exact absurd hsrc hop
    | some c => exact ⟨_, moveConstruct_eq s src c hsrc⟩

/-- The demonstration of lines 314-324 runs to completion from the initial
state with three allocations and three releases, none of them by a return. -/
theorem showImprovementWithRuleOfFive_trace :
    ∃ s, showImprovementWithRuleOfFive State.init = Outcome.ok s ∧
      s.trace = [Event.alloc 0, Event.store 0 0, Event.alloc 1, Event.store 1 42,
        Event.free 0, Event.alloc 2, Event.store 2 30, Event.free 2, Event.free 1] :=
  ⟨_, rfl, rfl⟩

/-- The copy assignment of the earlier class follows the allocate, release,
adopt protocol: for distinct instances owning live cells below the allocation
counter it allocates a new cell, stores the value of the source in it, releases
the cell `this` held, and leaves `this` holding the new cell. -/
theorem earlier_copyAssign_protocol (s : State) (this A ps pq : Nat) (c : Cell) (v : Int)
    (hne : this ≠ A)
    (hthis : s.objs this = some { myPtr := some ps })
    (hA : s.objs A = some { myPtr := some pq })
    (hc : s.cells ps = some c) (hv : s.cells pq = some (Cell.val v))
    (hps : ps < s.next) (hpq : pq < s.next) :
    ∃ s1, myClassWithCopyConstructorAndCopyAssignment.copyAssign s this A = Outcome.ok s1 ∧
      s1.trace = s.trace ++ [Event.alloc s.next, Event.store s.next v, Event.free ps] ∧
      handleOf s1 this = Outcome.ok (some s.next) ∧
      s.next ≠ ps ∧
      s1.cells ps = none ∧
      s1.cells s.next = some (Cell.val v) := by
  have h1 : ps ≠ s.next := by omega
  have h2 : pq ≠ s.next := by omega
  refine ⟨setPtr
    { cells := upd (upd (upd s.cells s.next (some Cell.indeterminate)) s.next
        (some (Cell.val v))) ps none,
      next := s.next + 1, objs := s.objs, nextObj := s.nextObj,
      trace := s.trace ++ [Event.alloc s.next] ++ [Event.store s.next v] ++ [Event.free ps] }
    this (some s.next), ?_, ?_, ?_, Ne.symm h1, ?_, ?_⟩
  · simp [myClassWithCopyConstructorAndCopyAssignment.copyAssign, getObj, hthis, hA, hne,
      newInt, load, storeAt, deleteInt, h1, h2, hv, hc]
  · simp [setPtr]
  · exact handleOf_eq _ _ { myPtr := some s.next } (by simp [setPtr])
  · simp [setPtr]
  · simp [setPtr, Ne.symm h1]

/-! ## Claims about single operations -/

/-- C1. Move construction: for every state and every `v`, with `a = construct(v)`
owning the cell `p` just allocated, `b = moveConstruct(a)` is a new object that
holds exactly the handle `p`, whose content is still `v`; `a` is left with the
null pointer; the move adds no event to the heap trace (no allocation, no
store, no release) and leaves every cell and the allocation counter as they
were. -/
theorem moveConstruct_transfers (s : State) (v : Int) :
    ∃ a s1 b s2,
      myClass.construct s v = Outcome.ok (a, s1) ∧
      handleOf s1 a = Outcome.ok (some s.next) ∧
      myClass.moveConstruct s1 a = Outcome.ok (b, s2) ∧
      b ≠ a ∧
      handleOf s2 b = Outcome.ok (some s.next) ∧
      valueOf s2 b = Outcome.ok v ∧
      handleOf s2 a = Outcome.ok nullptr ∧
      s2.trace = s1.trace ∧ s2.cells = s1.cells ∧ s2.next = s1.next := by
  refine ⟨_, _, _, _, construct_eq s v, ?_,
    moveConstruct_eq _ _ { myPtr := some s.next } (by simp), ?_, ?_, ?_, ?_, rfl, rfl, rfl⟩
  · simp [handleOf, getObj]
  · simp
  · simp [handleOf, getObj]
  · simp [valueOf, getObj, load]
  · simp [handleOf, getObj]

/-- C2. Copy independence: for every state and every `v`, with
`a = construct(v)`, `b = copy(a)` is a new object whose handle is the cell the
copy itself allocates (one allocation, then one store of `v` into it), different
from the cell of `a`; handle and value of `a` are what they were; writing any
`w` through `b` leaves `a` reading `v`, and writing `w` through `a` leaves `b`
reading `v`. -/
theorem copy_independent (s : State) (v w : Int) :
    ∃ a s1 b s2,
      myClass.construct s v = Outcome.ok (a, s1) ∧
      myClass.copy s1 a = Outcome.ok (b, s2) ∧
      b ≠ a ∧
      handleOf s1 a = Outcome.ok (some s.next) ∧
      handleOf s2 a = Outcome.ok (some s.next) ∧
      valueOf s2 a = Outcome.ok v ∧
      handleOf s2 b = Outcome.ok (some s1.next) ∧
      s1.next ≠ s.next ∧
      valueOf s2 b = Outcome.ok v ∧
      s2.trace = s1.trace ++ [Event.alloc s1.next, Event.store s1.next v] ∧
      (∃ s3, writeThrough s2 b w = Outcome.ok s3 ∧
        valueOf s3 b = Outcome.ok w ∧ valueOf s3 a = Outcome.ok v) ∧
      (∃ s3, writeThrough s2 a w = Outcome.ok s3 ∧
        valueOf s3 a = Outcome.ok w ∧ valueOf s3 b = Outcome.ok v) := by
  have hne : s.next ≠ s.next + 1 := by omega
  have hno : s.nextObj ≠ s.nextObj + 1 := by omega
  refine ⟨_, _, _, _, construct_eq s v,
    copy_eq _ s.nextObj s.next v (by simp) (by simp) hne, ?_,
    handleOf_eq _ _ { myPtr := some s.next } (by simp),
    handleOf_eq _ _ { myPtr := some s.next } (by simp [hno]),
    valueOf_eq _ _ s.next v (by simp [hno]) (by simp [hne]),
    handleOf_eq _ _ { myPtr := some (s.next + 1) } (by simp), ?_,
    valueOf_eq _ _ (s.next + 1) v (by simp) (by simp), ?_,
    ⟨_, writeThrough_eq _ _ (s.next + 1) (Cell.val v) w (by simp) (by simp),
      valueOf_eq _ _ (s.next + 1) w (by simp) (by simp),
      valueOf_eq _ _ s.next v (by simp [hno]) (by simp [hne])⟩,
    ⟨_, writeThrough_eq _ _ s.next (Cell.val v) w (by simp [hno]) (by simp [hne]),
      valueOf_eq _ _ s.next w (by simp [hno]) (by simp),
      valueOf_eq _ _ (s.next + 1) v (by simp) (by simp)⟩⟩
  · simp
  · simp
  · simp

/-- C7. Factory move-out: for every state and every `v`, `createObj(v)` returns
an object `x`; the heap events of the whole call are exactly those of the value
constructor of the local (one allocation of a cell `p`, one store of `v` into
it); the return adds no event and changes no cell; no cell is released; `x`
holds the handle `p` and reads `v`; the local is gone. -/
theorem createObj_single_allocation (s : State) (v : Int) :
    ∃ someObject s1 x s2,
      myClass.construct s v = Outcome.ok (someObject, s1) ∧
      createObj s v = Outcome.ok (x, s2) ∧
      s1.trace = s.trace ++ [Event.alloc s.next, Event.store s.next v] ∧
      s2.trace = s1.trace ∧ s2.cells = s1.cells ∧ s2.next = s.next + 1 ∧
      allocAddrs s2.trace = allocAddrs s.trace ++ [s.next] ∧
      freeAddrs s2.trace = freeAddrs s.trace ∧
      handleOf s2 x = Outcome.ok (some s.next) ∧
      valueOf s2 x = Outcome.ok v ∧
      x ≠ someObject ∧ s2.objs someObject = none := by
  have hno : s.nextObj + 1 ≠ s.nextObj := by omega
  refine ⟨_, _, s.nextObj + 1,
    { cells := upd (upd s.cells s.next (some Cell.indeterminate)) s.next (some (Cell.val v)),
      next := s.next + 1,
      objs := upd (upd (upd (upd (upd s.objs s.nextObj (some { myPtr := some s.next }))
        (s.nextObj + 1) (some { myPtr := some s.next })) s.nextObj (some { myPtr := nullptr }))
        s.nextObj (some { myPtr := nullptr })) s.nextObj none,
      nextObj := s.nextObj + 1 + 1,
      trace := s.trace ++ [Event.alloc s.next] ++ [Event.store s.next v] },
    construct_eq s v, ?_, ?_, rfl, rfl, rfl, ?_, ?_, ?_, ?_, hno, ?_⟩
  · simp [createObj, construct_eq, myClass.moveConstruct, getObj, newObj, setPtr,
      myClass.destroy, deleteInt, nullptr]
  · simp
  · simp [allocAddrs_append, allocAddrs]
  · simp [freeAddrs_append, freeAddrs]
  · exact handleOf_eq _ _ { myPtr := some s.next } (by simp [hno])
  · exact valueOf_eq _ _ s.next v (by simp [hno]) (by simp)
  · simp

/-- C8, as stated, fails: after `a = construct(42); b = moveConstruct(a)`,
`describeSelf` on `a` dereferences the null pointer, which is undefined
behaviour; no `EmptyCellAccess` error is reported to the caller. -/
theorem describeSelf_after_move_unreported :
    describeAfterMove = Outcome.undefined UB.nullDeref ∧
    describeAfterMove ≠ Outcome.raised Reported.EmptyCellAccess := by
  have h : describeAfterMove = Outcome.undefined UB.nullDeref := rfl
  exact ⟨h, by rw [h]; simp⟩

/-- C8, amended. `describeSelf` makes no emptiness check.  On an instance whose
`myPtr` is null it dereferences the null pointer: no value is returned and no
error is reported, the behaviour is undefined.  On an instance whose `myPtr`
points at a live initialised cell it returns that handle and the current
value. -/
theorem describeSelf_spec (s : State) (a : Nat) :
    (s.objs a = some { myPtr := nullptr } →
      myClass.describeSelf s a = Outcome.undefined UB.nullDeref) ∧
    (∀ p v, s.objs a = some { myPtr := some p } → s.cells p = some (Cell.val v) →
      myClass.describeSelf s a = Outcome.ok (some p, v)) := by
  constructor
  · intro h
    simp [myClass.describeSelf, getObj, h, load, nullptr]
  · intro p v h hv
    simp [myClass.describeSelf, getObj, h, load, hv]

theorem describeSelf_spec_witness :
    myClass.describeSelf afterMove 0 = Outcome.undefined UB.nullDeref ∧
    myClass.describeSelf afterMove 1 = Outcome.ok (some 0, 42) :=
  ⟨(describeSelf_spec afterMove 0).1 rfl, (describeSelf_spec afterMove 1).2 0 42 rfl rfl⟩

theorem Inv_twoObjects : Inv twoObjects :=
  Inv_alloc _ 2 (Inv_alloc State.init 1 Inv_init)

/-- C5. Move assignment: in every state satisfying the ownership invariant, for
distinct instances `self` (holding the pointer `old`, null or not) and `source`
(owning cell `p` holding `v`), `moveAssign(self, source)` completes; `self` then
holds `p`, which still holds `v`; `source` holds the null pointer; nothing is
allocated; the trace grows by exactly one release of the old cell of `self`, or
by nothing when `self` was empty; that old cell is no longer live and every
other cell, and every other object, is as before. -/
theorem moveAssign_transfers (s : State) (self source p : Nat) (old : Ptr) (v : Int)
    (hI : Inv s) (hne : self ≠ source)
    (hself : s.objs self = some { myPtr := old })
    (hsrc : s.objs source = some { myPtr := some p })
    (hv : s.cells p = some (Cell.val v)) :
    ∃ s1, myClass.moveAssign s self source = Outcome.ok s1 ∧
      s1.objs self = some { myPtr := some p } ∧
      s1.objs source = some { myPtr := nullptr } ∧
      s1.cells p = some (Cell.val v) ∧
      s1.next = s.next ∧
      allocAddrs s1.trace = allocAddrs s.trace ∧
      s1.trace = s.trace ++ (match old with
        | none => []
        | some q => [Event.free q]) ∧
      (∀ q, old = some q → s1.cells q = none) ∧
      (∀ r, old ≠ some r → s1.cells r = s.cells r) ∧
      (∀ o, o ≠ self → o ≠ source → s1.objs o = s.objs o) := by
  have hne2 : source ≠ self := fun e => hne e.symm
  cases old with
  | none =>
    refine ⟨setPtr (setPtr s self (some p)) source nullptr, ?_, ?_, ?_, hv, rfl, rfl, ?_, ?_,
      ?_, ?_⟩
    · simp [myClass.moveAssign, getObj, hself, hsrc, hne2, deleteInt]
    · simp [setPtr, hne]
    · simp [setPtr]
    · simp [setPtr]
    · intro q hq
      simp at hq
    · intro r _
      rfl
    · intro o h1 h2
      simp [setPtr, h1, h2]
  | some q =>
    obtain ⟨u, hu⟩ := hI.owned self q hself
    have hqp : p ≠ q := by
      intro e
      subst e
      exact hne (hI.unique _ _ _ hself hsrc)
    refine ⟨setPtr (setPtr { s with cells := upd s.cells q none,
                                    trace := s.trace ++ [Event.free q] }
        self (some p)) source nullptr, ?_, ?_, ?_, ?_, rfl, ?_, rfl, ?_, ?_, ?_⟩
    · simp [myClass.moveAssign, getObj, hself, hsrc, hne2, deleteInt, hu]
    · simp [setPtr, hne]
    · simp [setPtr]
    · simp [setPtr, hqp, hv]
    · simp [setPtr, allocAddrs_append, allocAddrs]
    · intro q1 hq1
      simp only [Option.some.injEq] at hq1
      subst hq1
      simp [setPtr]
    · intro r hr
      have hrq : r ≠ q := fun e => hr (by rw [e])
      simp [setPtr, hrq]
    · intro o h1 h2
      simp [setPtr, h1, h2]

theorem moveAssign_transfers_witness :
    ∃ s1, myClass.moveAssign twoObjects 0 1 = Outcome.ok s1 ∧
      s1.objs 0 = some { myPtr := some 1 } ∧
      s1.objs 1 = some { myPtr := nullptr } ∧
      s1.cells 1 = some (Cell.val 2) ∧
      s1.next = twoObjects.next ∧
      allocAddrs s1.trace = allocAddrs twoObjects.trace ∧
      s1.trace = twoObjects.trace ++ [Event.free 0] ∧
      (∀ q, some 0 = some q → s1.cells q = none) ∧
      (∀ r, some 0 ≠ some r → s1.cells r = twoObjects.cells r) ∧
      (∀ o, o ≠ 0 → o ≠ 1 → s1.objs o = twoObjects.objs o) :=
  moveAssign_transfers twoObjects 0 1 1 (some 0) 2 Inv_twoObjects (by decide) rfl rfl rfl

/-- C6. No double release, no leak: for every list of creations (value
constructions, copies, move constructions) that runs to completion from the
initial state, creating `N` objects, and every order `ds` that names each of the
`N` objects exactly once, destroying them in that order succeeds; at the end no
object and no cell is live, no address was allocated twice, no address was
released twice, the released addresses are exactly the allocated ones (each
allocated address is released exactly once), and the number of allocations
equals the number of releases. -/
theorem no_double_release_no_leak (ops : List Create) (ds : List Nat) (s : State)
    (hc : createAll State.init ops = Outcome.ok s)
    (hd : ds.Perm (List.range ops.length)) :
    ∃ s1, destroyAll s ds = Outcome.ok s1 ∧
      (∀ o, s1.objs o = none) ∧
      (∀ p, s1.cells p = none) ∧
      (allocAddrs s1.trace).Nodup ∧
      (freeAddrs s1.trace).Nodup ∧
      (freeAddrs s1.trace).Perm (allocAddrs s1.trace) ∧
      (∀ p, p ∈ allocAddrs s1.trace → (freeAddrs s1.trace).count p = 1) ∧
      (allocAddrs s1.trace).length = (freeAddrs s1.trace).length := by
  obtain ⟨hI, hlive, hn⟩ := Inv_createAll ops State.init s Inv_init
    (by intro o ho; simp [State.init] at ho) hc
  have hn2 : s.nextObj = ops.length := by simpa [State.init] using hn
  have hnd : ds.Nodup := hd.nodup_iff.mpr (List.nodup_range _)
  have hmem : ∀ o, o ∈ ds ↔ o < ops.length := by
    intro o
    rw [hd.mem_iff, List.mem_range]
  obtain ⟨s1, e1, h1, hgone, hsame⟩ := Inv_destroyAll ds s hI hnd
    (fun o ho => hlive o (by rw [hn2]; exact (hmem o).mp ho))
  have hdead : ∀ o, s1.objs o = none := by
    intro o
    by_cases hm : o ∈ ds
    · exact hgone o hm
    · rw [hsame o hm]
      by_contra hne
      have := hI.objs_lt o hne
      exact hm ((hmem o).mpr (by omega))
  obtain ⟨hcells, hna, hnf, hperm⟩ := Inv_accounting s1 h1 hdead
  refine ⟨s1, e1, hdead, hcells, hna, hnf, hperm, ?_, hperm.length_eq.symm⟩
  intro p hp
  rw [hperm.count_eq]
  exact List.count_eq_one_of_mem hna hp

theorem no_double_release_no_leak_witness :
    createAll State.init demoCreations = Outcome.ok demoCreated ∧
    demoOrder.Perm (List.range demoCreations.length) ∧
    ∃ s1, destroyAll demoCreated demoOrder = Outcome.ok s1 ∧
      (∀ o, s1.objs o = none) ∧
      (∀ p, s1.cells p = none) ∧
      (allocAddrs s1.trace).Nodup ∧
      (freeAddrs s1.trace).Nodup ∧
      (freeAddrs s1.trace).Perm (allocAddrs s1.trace) ∧
      (∀ p, p ∈ allocAddrs s1.trace → (freeAddrs s1.trace).count p = 1) ∧
      (allocAddrs s1.trace).length = (freeAddrs s1.trace).length :=
  ⟨rfl, by decide, no_double_release_no_leak demoCreations demoOrder demoCreated rfl (by decide)⟩

end RuleOfFive
